import Mathlib

/-!
Verification of the LIR lowering stage of jaq (src/jaq-interpret/src/lir.rs).

The Rust module lowers a mid-level IR ("MIR") of a jq-like filter language
into a flat, arena-addressed low-level IR ("LIR").  The lowering context
`Ctx` owns a growable arena `defs : Vec<Filter>` of lowered nodes addressed
by stable integer identifiers (`AbsId`), plus a stack `callable` of
in-progress user definitions.

Shallow embedding conventions:
* `AbsId` is `Nat`; the arena is a `List Filter` (append-only, `id_of_ast`
  appends at the end and returns the old length, exactly like `Vec::push`).
* The expression-lowering family (`Ctx::filter`, `Ctx::get`, `Ctx::of_str`,
  `Ctx::of_key_val` and the iterator loops inlined in them) never modifies
  the callable stack (MIR expressions contain no definitions), so it is
  embedded with the callable stack as a read-only argument and only the
  arena threaded as state.  `Ctx::main` and `Ctx::def`, which do push and
  drain callables, thread the full context.
* Rust panics (`panic!`, `assert!`, `unwrap`, out-of-bounds indexing,
  integer-underflow on `drain`) are modelled as `Option.none`.
* Numeric literal payloads (`hir::Num`) are carried opaquely: the lowering
  never inspects them, so `Num` carries a `String` and `Int` an `Int`.
* The iterator chains of the source (`map ... collect`, `rev().fold ...`)
  are written as named recursive helpers; each helper is annotated with
  the source expression it embeds.
-/

namespace Lir

/-- Arena identifier into the destination arena (`filter::Id`, called
`AbsId` in lir.rs). -/
abbrev AbsId := Nat

/-- Calling-convention tag on lowered calls (`filter::CallTyp`). -/
inductive CallTyp where
  | normal
  | catch
  | throw
  deriving DecidableEq, Repr

/-- Arithmetic operators (`jaq_syn::MathOp`); only `add` is produced by the
lowering itself (string/object concatenation), the rest pass through. -/
inductive MathOp where
  | add
  | sub
  | mul
  | div
  | rem
  deriving DecidableEq, Repr

/-- Ordering comparison operators (`jaq_syn::OrdOp`), passed through. -/
inductive OrdOp where
  | lt
  | le
  | gt
  | ge
  | eq
  | ne
  deriving DecidableEq, Repr

/-- Fold flavour (`jaq_syn::filter::FoldType`), passed through unchanged. -/
inductive FoldType where
  | reduce
  | foreach
  | for_
  deriving DecidableEq, Repr

/-- Essential/optional policy of one path part (`path::Opt`). -/
inductive Opt where
  | optional
  | essential
  deriving DecidableEq, Repr

/-- One path part (`path::Part`): index by a value, or a range with
optional lower and upper bounds. -/
inductive PathPart (α : Type) where
  | index (i : α)
  | range (lower upper : Option α)
  deriving DecidableEq, Repr

/-- Declared parameter of a user definition (`jaq_syn::Arg`): a plain-value
parameter (`var`) or a filter parameter (`fn`, `Fun` in the source). -/
inductive Arg (α : Type) where
  | var (x : α)
  | fn (x : α)
  deriving DecidableEq, Repr

/-- Payload-mapping on `Arg`, preserving the variant (the source uses
`ty.as_ref().map(|_| a)` to retag an argument id with its declared kind). -/
def Arg.map (f : α → β) : Arg α → Arg β
  | .var x => .var (f x)
  | .fn x => .fn (f x)

/-- Call node of the LIR (`filter::Call`): target id, calling convention,
skip count, and the argument ids tagged by their declared parameter kind. -/
structure FilterCall where
  id : AbsId
  typ : CallTyp
  skip : Nat
  args : List (Arg AbsId)
  deriving DecidableEq, Repr

/-- Lowered LIR node (`filter::Ast`, imported as `Filter` in lir.rs).
Every reference to another node is an `AbsId` into the arena. -/
inductive Filter where
  | id
  | toString
  | num (n : String)
  | int (i : Int)
  | str (s : String)
  | var (v : Nat)
  | native (n : Nat) (args : List AbsId)
  | call (c : FilterCall)
  | pipe (l : AbsId) (bind : Bool) (r : AbsId)
  | comma (l r : AbsId)
  | alt (l r : AbsId)
  | logic (l : AbsId) (stop : Bool) (r : AbsId)
  | math (l : AbsId) (op : MathOp) (r : AbsId)
  | ord (l : AbsId) (op : OrdOp) (r : AbsId)
  | assign (l r : AbsId)
  | update (l r : AbsId)
  | updateMath (l : AbsId) (op : MathOp) (r : AbsId)
  | array (inner : AbsId)
  | objEmpty
  | objSingle (k v : AbsId)
  | ite (c t e : AbsId)
  | tryF (f c : AbsId)
  | neg (f : AbsId)
  | fold (typ : FoldType) (xs init update : AbsId)
  | path (f : AbsId) (parts : List (PathPart AbsId × Opt))
  deriving DecidableEq, Repr

/-- Numeric literal of the MIR (`hir::Num`), carried opaquely. -/
inductive Num where
  | num (n : String)
  | int (i : Int)
  deriving DecidableEq, Repr

/-- One part of an interpolated string (`jaq_syn::string::Part`): a literal
fragment or an embedded filter. -/
inductive StrPart (α : Type) where
  | str (s : String)
  | fn (f : α)
  deriving Repr

/-- Interpolated string (`jaq_syn::Str`): optional format filter plus the
ordered part sequence. -/
structure StrS (α : Type) where
  fmt : Option α
  parts : List (StrPart α)
  deriving Repr

/-- Key-value entry of an object literal (`jaq_syn::filter::KeyVal`):
either a computed key with a value, or a string key with an optional value
(the shorthand form omits the value). -/
inductive KeyVal (α : Type) where
  | filter (k v : α)
  | str (k : StrS α) (v : Option α)
  deriving Repr

/-- One surface path part (`jaq_syn::path::Part`) whose indices are still
MIR filters. -/
inductive SynPart (α : Type) where
  | index (i : α)
  | range (lower upper : Option α)
  deriving Repr

/-- Call target of a MIR call (`mir::Call`): an in-scope parameter, a
native function, or a resolved user definition (with relative callable id,
skip count and tail-position flag). -/
inductive MCall where
  | arg (a : Nat)
  | native (n : Nat)
  | defn (id : Nat) (skip : Nat) (tail : Bool)
  deriving DecidableEq, Repr

/-- Assignment operator flavours (`jaq_syn::filter::AssignOp`). -/
inductive AssignOp where
  | assign
  | update
  | updateWith (op : MathOp)
  deriving DecidableEq, Repr

/-- Binary operators of the MIR (`jaq_syn::filter::BinaryOp`). -/
inductive BinaryOp where
  | pipe (bind : Option String)
  | comma
  | alt
  | or
  | and
  | math (op : MathOp)
  | ord (op : OrdOp)
  | assign (op : AssignOp)
  deriving DecidableEq, Repr

/-- MIR filter expression (`mir::Filter`).  Spans (`Spanned`) are erased:
the lowering only ever reads the bare expression (`f.0`). -/
inductive MFilter where
  | var (v : Nat)
  | call (c : MCall) (args : List MFilter)
  | fold (typ : FoldType) (xs init f : MFilter)
  | id
  | num (n : Num)
  | str (s : StrS MFilter)
  | array (a : Option MFilter)
  | object (o : List (KeyVal MFilter))
  | tryF (f : MFilter)
  | neg (f : MFilter)
  | recurse
  | binary (l : MFilter) (op : BinaryOp) (r : MFilter)
  | ite (ifThens : List (MFilter × MFilter)) (els : Option MFilter)
  | tryCatch (t : MFilter) (c : Option MFilter)
  | path (f : MFilter) (parts : List (SynPart MFilter × Opt))
  deriving Repr

/-- Declared signature of a user definition (`jaq_syn::Call`). -/
structure SynCall where
  name : String
  args : List (Arg String)
  deriving DecidableEq, Repr

/-- Bookkeeping record for one user definition being lowered
(`lir::Callable`): declared signature, reserved arena id of its body, and
its tail-recursiveness flag. -/
structure Callable where
  sig : SynCall
  id : AbsId
  tailrec : Bool
  deriving DecidableEq, Repr

mutual

/-- MIR program scope (`mir::Main`): local definitions plus a body. -/
inductive Main : Type where
  | mk (defs : List Def) (body : MFilter)

/-- MIR definition (`mir::Def`): declared signature, right-hand side scope,
and the tail-recursiveness flag computed by the resolution pass. -/
inductive Def : Type where
  | mk (lhs : SynCall) (rhs : Main) (tailrec : Bool)

end

/-- Definitions of a `Main` scope. -/
def Main.defs : Main → List Def
  | .mk d _ => d

/-- Body of a `Main` scope. -/
def Main.body : Main → MFilter
  | .mk _ b => b

/-- Declared signature of a `Def`. -/
def Def.lhs : Def → SynCall
  | .mk l _ _ => l

/-- Right-hand side of a `Def`. -/
def Def.rhs : Def → Main
  | .mk _ r _ => r

/-- Tail-recursiveness flag of a `Def`. -/
def Def.tailrec : Def → Bool
  | .mk _ _ t => t

/-- Lowering context (`lir::Ctx`): the destination arena and the callable
stack. -/
structure Ctx where
  defs : List Filter
  callable : List Callable
  deriving Repr

/-- Reserved arena id of the identity builtin (`const IDENTITY`). -/
def IDENTITY : AbsId := 0

/-- Reserved arena id of the to-string builtin (`const TOSTRING`). -/
def TOSTRING : AbsId := IDENTITY + 1

/-- Reserved arena id of the empty-generator builtin (`const EMPTY`). -/
def EMPTY : AbsId := TOSTRING + 2

/-- Reserved arena id of the deep-recursion builtin (`const RECURSE`). -/
def RECURSE : AbsId := EMPTY + 4

/-- Append a node to the arena and return its new id (`Ctx::id_of_ast`). -/
def id_of_ast (f : Filter) (ds : List Filter) : AbsId × List Filter :=
  (ds.length, ds ++ [f])

/-- Construct a call to `..` (free function `recurse` in lir.rs). -/
def recurseCall (typ : CallTyp) : Filter :=
  .call ⟨RECURSE, typ, 0, []⟩

/-- Build the empty-generator builtin `{}[]` (`Ctx::empty`). -/
def emptyGen (ds : List Filter) : Filter × List Filter :=
  let part : PathPart AbsId × Opt := (.range none none, .essential)
  let (oid, ds) := id_of_ast .objEmpty ds
  (.path oid [part], ds)

/-- Build the deep-recursion builtin `., (.[]? | ..)` (`Ctx::recurse`). -/
def recurseGen (ds : List Filter) : Filter × List Filter :=
  let part : PathPart AbsId × Opt := (.range none none, .optional)
  let p := Filter.path IDENTITY [part]
  let f := recurseCall .throw
  let (pid, ds) := id_of_ast p ds
  let (fid, ds) := id_of_ast f ds
  let pipe := Filter.pipe pid false fid
  let (pipeId, ds) := id_of_ast pipe ds
  (.comma IDENTITY pipeId, ds)

/-- Fresh lowering context with the four builtins installed
(`impl Default for Ctx`).  Each `assert_eq!` of the bootstrap is modelled
as a guard returning `none` on mismatch. -/
def Ctx.default : Option Ctx :=
  let ds : List Filter := []
  let (i0, ds) := id_of_ast .id ds
  if i0 = IDENTITY then
    let (i1, ds) := id_of_ast .toString ds
    if i1 = TOSTRING then
      let (e, ds) := emptyGen ds
      let (eid, ds) := id_of_ast e ds
      if eid = EMPTY then
        let (r, ds) := recurseGen ds
        let (rid, ds) := id_of_ast r ds
        if rid = RECURSE then some ⟨ds, []⟩ else none
      else none
    else none
  else none

/-- Allocate both operands and combine them with arithmetic addition
(`Ctx::add`). -/
def add (l r : Filter) (ds : List Filter) : Filter × List Filter :=
  let (lid, ds) := id_of_ast l ds
  let (rid, ds) := id_of_ast r ds
  (.math lid .add rid, ds)

/-- Right-to-left addition fold shared by string interpolation and object
literals: `iter.collect::<Vec<_>>().into_iter().rev()`, then
`iter.next().unwrap_or(dflt)` and `iter.fold(last, |acc, x| self.add(x, acc))`.
The rightmost element is the innermost accumulator; an empty list yields
the default. -/
def fold_adds (dflt : Filter) : List Filter → List Filter → Filter × List Filter
  | [], ds => (dflt, ds)
  | [x], ds => (x, ds)
  | x :: y :: rest, ds =>
    let (acc, ds) := fold_adds dflt (y :: rest) ds
    add x acc ds

/-- Positional zip of declared parameters against lowered argument ids
(`callable.sig.args.iter().zip(args)` followed by
`args.map(|(ty, a)| ty.as_ref().map(|_| a))`). -/
def zipArgs (tys : List (Arg String)) (ids : List AbsId) : List (Arg AbsId) :=
  List.zipWith (fun ty a => ty.map (fun _ => a)) tys ids

/-- Dispatch of a binary MIR operator onto its LIR node (the match on
`BinaryOp` inside `Ctx::filter`, after both operands are lowered). -/
def binaryNode (l : AbsId) (op : BinaryOp) (r : AbsId) : Filter :=
  match op with
  | .pipe bind => .pipe l bind.isSome r
  | .comma => .comma l r
  | .alt => .alt l r
  | .or => .logic l true r
  | .and => .logic l false r
  | .math op => .math l op r
  | .ord op => .ord l op r
  | .assign .assign => .assign l r
  | .assign .update => .update l r
  | .assign (.updateWith op) => .updateMath l op r

/-- Modelled from the spec: `Path::from(path::Part::Index(k))` (the
`From<Part>` impl of jaq-interpret's path module, not part of lir.rs):
a one-part path with the essential access policy, used by the shorthand
object key to mean "index the current input by this key", which errors on
values that cannot be indexed. -/
def Path.fromPart (p : PathPart AbsId) : List (PathPart AbsId × Opt) :=
  [(p, .essential)]

mutual

/-- Lower a MIR expression to a LIR node (`Ctx::filter`).  The callable
stack `cbs` is read-only here: expressions contain no definitions. -/
def filter (cbs : List Callable) : MFilter → List Filter → Option (Filter × List Filter)
  | .var v, ds => some (.var v, ds)
  | .call c args, ds => do
    let (ids, ds) ← getList cbs args ds
    match c with
    | .arg a => if ids.isEmpty then some (.var a, ds) else none
    | .native n => some (.native n ids, ds)
    | .defn id skip tail => do
      let cb ← cbs.get? id
      let typ ← match tail, cb.tailrec with
        | true, true => some CallTyp.throw
        | true, false => none
        | false, true => some CallTyp.catch
        | false, false => some CallTyp.normal
      some (.call ⟨cb.id, typ, skip, zipArgs cb.sig.args ids⟩, ds)
  | .fold typ xs init f, ds => do
    let (gx, ds) ← filter cbs xs ds
    let (x, ds) := id_of_ast gx ds
    let (gi, ds) ← filter cbs init ds
    let (i, ds) := id_of_ast gi ds
    let (gu, ds) ← filter cbs f ds
    let (u, ds) := id_of_ast gu ds
    some (.fold typ x i u, ds)
  | .id, ds => some (.id, ds)
  | .num (.num n), ds => some (.num n, ds)
  | .num (.int i), ds => some (.int i, ds)
  | .str s, ds => of_str cbs s ds
  | .array none, ds => some (.array EMPTY, ds)
  | .array (some a), ds => do
    let (gaid, ds) ← filter cbs a ds
    let (aid, ds) := id_of_ast gaid ds
    some (.array aid, ds)
  | .object o, ds => do
    let (kvs, ds) ← kvList cbs o ds
    some (fold_adds .objEmpty kvs ds)
  | .tryF f, ds => do
    let (gfid, ds) ← filter cbs f ds
    let (fid, ds) := id_of_ast gfid ds
    some (.tryF fid EMPTY, ds)
  | .neg f, ds => do
    let (gfid, ds) ← filter cbs f ds
    let (fid, ds) := id_of_ast gfid ds
    some (.neg fid, ds)
  | .recurse, ds => some (recurseCall .catch, ds)
  | .binary l op r, ds => do
    let (glid, ds) ← filter cbs l ds
    let (lid, ds) := id_of_ast glid ds
    let (grid, ds) ← filter cbs r ds
    let (rid, ds) := id_of_ast grid ds
    some (binaryNode lid op rid, ds)
  | .ite ifThens none, ds => iteFold cbs ifThens .id ds
  | .ite ifThens (some e), ds => do
    let (els, ds) ← filter cbs e ds
    iteFold cbs ifThens els ds
  | .tryCatch t none, ds => do
    let (gtid, ds) ← filter cbs t ds
    let (tid, ds) := id_of_ast gtid ds
    some (.tryF tid EMPTY, ds)
  | .tryCatch t (some c), ds => do
    let (gtid, ds) ← filter cbs t ds
    let (tid, ds) := id_of_ast gtid ds
    let (gcid, ds) ← filter cbs c ds
    let (cid, ds) := id_of_ast gcid ds
    some (.tryF tid cid, ds)
  | .path f parts, ds => do
    let (gfid, ds) ← filter cbs f ds
    let (fid, ds) := id_of_ast gfid ds
    let (ps, ds) ← pathParts cbs parts ds
    some (.path fid ps, ds)

/-- Lower a list of argument expressions left to right
(`args.into_iter().map(|a| self.get(a)).collect()`). -/
def getList (cbs : List Callable) : List MFilter → List Filter → Option (List AbsId × List Filter)
  | [], ds => some ([], ds)
  | f :: rest, ds => do
    let (gx, ds) ← filter cbs f ds
    let (x, ds) := id_of_ast gx ds
    let (xs, ds) ← getList cbs rest ds
    some (x :: xs, ds)

/-- Lower an optional expression (`Option::map` over `self.get`), used by
range bounds of path parts. -/
def getOpt (cbs : List Callable) : Option MFilter → List Filter → Option (Option AbsId × List Filter)
  | none, ds => some (none, ds)
  | some f, ds => do
    let (gx, ds) ← filter cbs f ds
    let (x, ds) := id_of_ast gx ds
    some (some x, ds)

/-- Lower a string interpolation (`Ctx::of_str`): resolve the format
filter (defaulting to the to-string builtin), lower every part, then
right-to-left fold with addition; no parts yields the empty string. -/
def of_str (cbs : List Callable) : StrS MFilter → List Filter → Option (Filter × List Filter)
  | ⟨none, parts⟩, ds => do
    let (fs, ds) ← strParts cbs TOSTRING parts ds
    some (fold_adds (.str "") fs ds)
  | ⟨some fmt, parts⟩, ds => do
    let (gfid, ds) ← filter cbs fmt ds
    let (fid, ds) := id_of_ast gfid ds
    let (fs, ds) ← strParts cbs fid parts ds
    some (fold_adds (.str "") fs ds)

/-- Lower the parts of a string interpolation left to right (the
`s.parts.into_iter().map(...)` chain of `Ctx::of_str`): a literal part
becomes a string node, an embedded filter is piped into the format
filter. -/
def strParts (cbs : List Callable) (fmt : AbsId) :
    List (StrPart MFilter) → List Filter → Option (List Filter × List Filter)
  | [], ds => some ([], ds)
  | .str s :: rest, ds => do
    let (fs, ds) ← strParts cbs fmt rest ds
    some (Filter.str s :: fs, ds)
  | .fn f :: rest, ds => do
    let (gfid, ds) ← filter cbs f ds
    let (fid, ds) := id_of_ast gfid ds
    let (fs, ds) ← strParts cbs fmt rest ds
    some (Filter.pipe fid false fmt :: fs, ds)

/-- Lower one key-value entry of an object literal (`Ctx::of_key_val`). -/
def of_key_val (cbs : List Callable) : KeyVal MFilter → List Filter → Option (Filter × List Filter)
  | .filter k v, ds => do
    let (gkid, ds) ← filter cbs k ds
    let (kid, ds) := id_of_ast gkid ds
    let (gvid, ds) ← filter cbs v ds
    let (vid, ds) := id_of_ast gvid ds
    some (.objSingle kid vid, ds)
  | .str k none, ds => do
    let (kf, ds) ← of_str cbs k ds
    let (kid, ds) := id_of_ast kf ds
    let (vid, ds) := id_of_ast (Filter.path IDENTITY (Path.fromPart (.index kid))) ds
    some (.objSingle kid vid, ds)
  | .str k (some v), ds => do
    let (kf, ds) ← of_str cbs k ds
    let (kid, ds) := id_of_ast kf ds
    let (gvid, ds) ← filter cbs v ds
    let (vid, ds) := id_of_ast gvid ds
    some (.objSingle kid vid, ds)

/-- Lower the entries of an object literal left to right
(`o.into_iter().map(|kv| self.of_key_val(kv))`). -/
def kvList (cbs : List Callable) : List (KeyVal MFilter) → List Filter → Option (List Filter × List Filter)
  | [], ds => some ([], ds)
  | kv :: rest, ds => do
    let (f, ds) ← of_key_val cbs kv ds
    let (fs, ds) ← kvList cbs rest ds
    some (f :: fs, ds)

/-- Right-fold of conditional branches onto the lowered else branch
(`if_thens.into_iter().rev().fold(else_, ...)` in `Ctx::filter`): the
branches to the right are folded first, and each step produces one
conditional node whose else id is the previously folded result. -/
def iteFold (cbs : List Callable) : List (MFilter × MFilter) → Filter → List Filter → Option (Filter × List Filter)
  | [], els, ds => some (els, ds)
  | (i, t) :: rest, els, ds => do
    let (acc, ds) ← iteFold cbs rest els ds
    let (giid, ds) ← filter cbs i ds
    let (iid, ds) := id_of_ast giid ds
    let (gtid, ds) ← filter cbs t ds
    let (tid, ds) := id_of_ast gtid ds
    let (aid, ds) := id_of_ast acc ds
    some (.ite iid tid aid, ds)

/-- Lower the parts of a path expression left to right (the
`path.into_iter().map(...)` chain in `Ctx::filter`), keeping each part's
essential/optional policy unchanged. -/
def pathParts (cbs : List Callable) : List (SynPart MFilter × Opt) → List Filter → Option (List (PathPart AbsId × Opt) × List Filter)
  | [], ds => some ([], ds)
  | (.index i, opt) :: rest, ds => do
    let (giid, ds) ← filter cbs i ds
    let (iid, ds) := id_of_ast giid ds
    let (ps, ds) ← pathParts cbs rest ds
    some ((.index iid, opt) :: ps, ds)
  | (.range lo hi, opt) :: rest, ds => do
    let (lo2, ds) ← getOpt cbs lo ds
    let (hi2, ds) ← getOpt cbs hi ds
    let (ps, ds) ← pathParts cbs rest ds
    some ((.range lo2 hi2, opt) :: ps, ds)

end

/-- Lower an expression and allocate the result (`Ctx::get`).  Inside the
mutual block above this one-liner is inlined at every use site (so that the
recursion stays structural); this wrapper is definitionally equal to each
inlined occurrence. -/
def get (cbs : List Callable) (f : MFilter) (ds : List Filter) :
    Option (AbsId × List Filter) := do
  let (g, ds) ← filter cbs f ds
  some (id_of_ast g ds)

mutual

/-- Lower a scope (`Ctx::main`): lower the definitions, then the body,
then drain exactly the callables the definitions pushed.  The arena is
left untouched by the drain. -/
def main : Main → Ctx → Option (Filter × Ctx)
  | .mk defs body, c => do
    let n := defs.length
    let c ← defListF defs c
    let (b, ds) ← filter c.callable body c.defs
    let c : Ctx := ⟨ds, c.callable⟩
    if n ≤ c.callable.length then
      some (b, ⟨c.defs, c.callable.take (c.callable.length - n)⟩)
    else none

/-- Lower a list of definitions in order (`main.defs.into_iter().for_each`),
discarding the returned ids. -/
def defListF : List Def → Ctx → Option Ctx
  | [], c => some c
  | d :: rest, c => do
    let (_, c) ← defF d c
    defListF rest c

/-- Lower one definition (`Ctx::def`): allocate a placeholder identity
node at a fresh id, push the callable, lower the right-hand side, write
the lowered body over the placeholder, then check that the top of the
callable stack is still this definition's callable (the `assert!`). -/
def defF : Def → Ctx → Option (AbsId × Ctx)
  | .mk lhs rhs tailrec, c => do
    let id := c.defs.length
    let c : Ctx := ⟨c.defs ++ [Filter.id], c.callable ++ [⟨lhs, id, tailrec⟩]⟩
    let (body, c) ← main rhs c
    let c : Ctx := ⟨c.defs.set id body, c.callable⟩
    let last ← c.callable.getLast?
    if last.id = id then some (id, c) else none

end

/-!
Helper lemmas.  `get_some_iff` unpacks one `Ctx::get` step; the `_ext`
family states that the lowering only ever appends to the arena (the arena
is append-only: identifiers are stable and slots are never removed).
-/

theorem get_some_iff (cbs : List Callable) (f : MFilter) (ds : List Filter)
    (x : AbsId) (ds2 : List Filter) :
    get cbs f ds = some (x, ds2) ↔
      ∃ g ds1, filter cbs f ds = some (g, ds1) ∧ x = ds1.length ∧ ds2 = ds1 ++ [g] := by
  unfold get
  cases h : filter cbs f ds with
  | none => simp
  | some p =>
    obtain ⟨g, ds1⟩ := p
    simp only [Option.some_bind, Option.some_inj, Prod.mk.injEq, id_of_ast]
    constructor
    · rintro ⟨rfl, rfl⟩
      exact ⟨g, ds1, ⟨rfl, rfl⟩, rfl, rfl⟩
    · rintro ⟨g1, ds11, ⟨rfl, rfl⟩, rfl, rfl⟩
      simp

theorem add_snd (x y : Filter) (ds : List Filter) :
    add x y ds = (.math ds.length .add (ds.length + 1), ds ++ [x, y]) := by
  simp [add, id_of_ast]

theorem fold_adds_snd (dflt : Filter) :
    ∀ (fs : List Filter) (ds : List Filter), ∃ ext, (fold_adds dflt fs ds).2 = ds ++ ext
  | [], ds => ⟨[], by simp [fold_adds]⟩
  | [x], ds => ⟨[], by simp [fold_adds]⟩
  | x :: y :: rest, ds => by
    obtain ⟨ext, hext⟩ := fold_adds_snd dflt (y :: rest) ds
    refine ⟨ext ++ [x, (fold_adds dflt (y :: rest) ds).1], ?_⟩
    simp only [fold_adds]
    rw [add_snd]
    simp [hext]

mutual

theorem filter_ext (cbs : List Callable) :
    ∀ (f : MFilter) (ds : List Filter) (r : Filter) (ds2 : List Filter),
      filter cbs f ds = some (r, ds2) → ∃ ext, ds2 = ds ++ ext
  | .var v, ds, r, ds2, h => by
    simp only [filter, Option.some_inj, Prod.mk.injEq] at h
    exact ⟨[], by simp [h.2]⟩
  | .call c args, ds, r, ds2, h => by
    simp only [filter, Option.bind_eq_bind, Option.bind_eq_some] at h
    obtain ⟨⟨ids, ds1⟩, h1, h2⟩ := h
    obtain ⟨e1, he1⟩ := getList_ext cbs args ds ids ds1 h1
    match c with
    | .arg a =>
      simp only at h2
      split at h2
      · simp only [Option.some_inj, Prod.mk.injEq] at h2
        exact ⟨e1, by simp [← h2.2, he1]⟩
      · exact absurd h2 (by simp)
    | .native n =>
      simp only [Option.some_inj, Prod.mk.injEq] at h2
      exact ⟨e1, by simp [← h2.2, he1]⟩
    | .defn id skip tail =>
      simp only [Option.bind_eq_bind, Option.bind_eq_some] at h2
      obtain ⟨cb, hcb, h3⟩ := h2
      obtain ⟨sig, cid, tr⟩ := cb
      cases tail <;> cases tr <;>
        simp only [Option.bind_eq_bind, Option.some_bind, Option.none_bind,
          Option.some_inj, Prod.mk.injEq, reduceCtorEq] at h3 <;>
        exact ⟨e1, by simp [← h3.2, he1]⟩
  | .fold typ xs init f, ds, r, ds2, h => by
    simp only [filter, Option.bind_eq_bind, Option.bind_eq_some, id_of_ast] at h
    obtain ⟨⟨gx, dsx⟩, hx, ⟨⟨gi, dsi⟩, hi, ⟨⟨gu, dsu⟩, hu, h4⟩⟩⟩ := h
    obtain ⟨e1, he1⟩ := filter_ext cbs xs ds gx dsx hx
    obtain ⟨e2, he2⟩ := filter_ext cbs init (dsx ++ [gx]) gi dsi hi
    obtain ⟨e3, he3⟩ := filter_ext cbs f (dsi ++ [gi]) gu dsu hu
    simp only [Option.some_inj, Prod.mk.injEq] at h4
    exact ⟨e1 ++ [gx] ++ e2 ++ [gi] ++ e3 ++ [gu],
      by simp [← h4.2, he3, he2, he1]⟩
  | .id, ds, r, ds2, h => by
    simp only [filter, Option.some_inj, Prod.mk.injEq] at h
    exact ⟨[], by simp [h.2]⟩
  | .num (.num n), ds, r, ds2, h => by
    simp only [filter, Option.some_inj, Prod.mk.injEq] at h
    exact ⟨[], by simp [h.2]⟩
  | .num (.int i), ds, r, ds2, h => by
    simp only [filter, Option.some_inj, Prod.mk.injEq] at h
    exact ⟨[], by simp [h.2]⟩
  | .str s, ds, r, ds2, h => by
    simp only [filter] at h
    exact of_str_ext cbs s ds r ds2 h
  | .array none, ds, r, ds2, h => by
    simp only [filter, Option.some_inj, Prod.mk.injEq] at h
    exact ⟨[], by simp [h.2]⟩
  | .array (some a), ds, r, ds2, h => by
    simp only [filter, Option.bind_eq_bind, Option.bind_eq_some, id_of_ast] at h
    obtain ⟨⟨ga, ds1⟩, ha, h2⟩ := h
    obtain ⟨e1, he1⟩ := filter_ext cbs a ds ga ds1 ha
    simp only [Option.some_inj, Prod.mk.injEq] at h2
    exact ⟨e1 ++ [ga], by simp [← h2.2, he1]⟩
  | .object o, ds, r, ds2, h => by
    simp only [filter, Option.bind_eq_bind, Option.bind_eq_some] at h
    obtain ⟨⟨kvs, ds1⟩, h1, h2⟩ := h
    obtain ⟨e1, he1⟩ := kvList_ext cbs o ds kvs ds1 h1
    obtain ⟨e2, he2⟩ := fold_adds_snd .objEmpty kvs ds1
    simp only [Option.some_inj] at h2
    have hsnd : ds2 = (fold_adds .objEmpty kvs ds1).2 := by rw [h2]
    exact ⟨e1 ++ e2, by rw [hsnd, he2, he1]; simp⟩
  | .tryF f, ds, r, ds2, h => by
    simp only [filter, Option.bind_eq_bind, Option.bind_eq_some, id_of_ast] at h
    obtain ⟨⟨gf, ds1⟩, hf, h2⟩ := h
    obtain ⟨e1, he1⟩ := filter_ext cbs f ds gf ds1 hf
    simp only [Option.some_inj, Prod.mk.injEq] at h2
    exact ⟨e1 ++ [gf], by simp [← h2.2, he1]⟩
  | .neg f, ds, r, ds2, h => by
    simp only [filter, Option.bind_eq_bind, Option.bind_eq_some, id_of_ast] at h
    obtain ⟨⟨gf, ds1⟩, hf, h2⟩ := h
    obtain ⟨e1, he1⟩ := filter_ext cbs f ds gf ds1 hf
    simp only [Option.some_inj, Prod.mk.injEq] at h2
    exact ⟨e1 ++ [gf], by simp [← h2.2, he1]⟩
  | .recurse, ds, r, ds2, h => by
    simp only [filter, Option.some_inj, Prod.mk.injEq] at h
    exact ⟨[], by simp [h.2]⟩
  | .binary l op rr, ds, r, ds2, h => by
    simp only [filter, Option.bind_eq_bind, Option.bind_eq_some, id_of_ast] at h
    obtain ⟨⟨gl, dsl⟩, hl, ⟨⟨gr, dsr⟩, hr, h3⟩⟩ := h
    obtain ⟨e1, he1⟩ := filter_ext cbs l ds gl dsl hl
    obtain ⟨e2, he2⟩ := filter_ext cbs rr (dsl ++ [gl]) gr dsr hr
    simp only [Option.some_inj, Prod.mk.injEq] at h3
    exact ⟨e1 ++ [gl] ++ e2 ++ [gr], by simp [← h3.2, he2, he1]⟩
  | .ite ifThens none, ds, r, ds2, h => by
    simp only [filter] at h
    exact iteFold_ext cbs ifThens .id ds r ds2 h
  | .ite ifThens (some e), ds, r, ds2, h => by
    simp only [filter, Option.bind_eq_bind, Option.bind_eq_some] at h
    obtain ⟨⟨els, ds1⟩, he, h2⟩ := h
    obtain ⟨e1, he1⟩ := filter_ext cbs e ds els ds1 he
    obtain ⟨e2, he2⟩ := iteFold_ext cbs ifThens els ds1 r ds2 h2
    exact ⟨e1 ++ e2, by simp [he2, he1]⟩
  | .tryCatch t none, ds, r, ds2, h => by
    simp only [filter, Option.bind_eq_bind, Option.bind_eq_some, id_of_ast] at h
    obtain ⟨⟨gt, ds1⟩, ht, h2⟩ := h
    obtain ⟨e1, he1⟩ := filter_ext cbs t ds gt ds1 ht
    simp only [Option.some_inj, Prod.mk.injEq] at h2
    exact ⟨e1 ++ [gt], by simp [← h2.2, he1]⟩
  | .tryCatch t (some c), ds, r, ds2, h => by
    simp only [filter, Option.bind_eq_bind, Option.bind_eq_some, id_of_ast] at h
    obtain ⟨⟨gt, dst⟩, ht, ⟨⟨gc, dsc⟩, hc, h3⟩⟩ := h
    obtain ⟨e1, he1⟩ := filter_ext cbs t ds gt dst ht
    obtain ⟨e2, he2⟩ := filter_ext cbs c (dst ++ [gt]) gc dsc hc
    simp only [Option.some_inj, Prod.mk.injEq] at h3
    exact ⟨e1 ++ [gt] ++ e2 ++ [gc], by simp [← h3.2, he2, he1]⟩
  | .path f parts, ds, r, ds2, h => by
    simp only [filter, Option.bind_eq_bind, Option.bind_eq_some, id_of_ast] at h
    obtain ⟨⟨gf, ds1⟩, hf, ⟨⟨ps, dsp⟩, hp, h3⟩⟩ := h
    obtain ⟨e1, he1⟩ := filter_ext cbs f ds gf ds1 hf
    obtain ⟨e2, he2⟩ := pathParts_ext cbs parts (ds1 ++ [gf]) ps dsp hp
    simp only [Option.some_inj, Prod.mk.injEq] at h3
    exact ⟨e1 ++ [gf] ++ e2, by simp [← h3.2, he2, he1]⟩

theorem getList_ext (cbs : List Callable) :
    ∀ (fs : List MFilter) (ds : List Filter) (r : List AbsId) (ds2 : List Filter),
      getList cbs fs ds = some (r, ds2) → ∃ ext, ds2 = ds ++ ext
  | [], ds, r, ds2, h => by
    simp only [getList, Option.some_inj, Prod.mk.injEq] at h
    exact ⟨[], by simp [h.2]⟩
  | f :: rest, ds, r, ds2, h => by
    simp only [getList, Option.bind_eq_bind, Option.bind_eq_some, id_of_ast] at h
    obtain ⟨⟨gf, ds1⟩, hf, ⟨⟨xs, dsx⟩, hx, h3⟩⟩ := h
    obtain ⟨e1, he1⟩ := filter_ext cbs f ds gf ds1 hf
    obtain ⟨e2, he2⟩ := getList_ext cbs rest (ds1 ++ [gf]) xs dsx hx
    simp only [Option.some_inj, Prod.mk.injEq] at h3
    exact ⟨e1 ++ [gf] ++ e2, by simp [← h3.2, he2, he1]⟩

theorem getOpt_ext (cbs : List Callable) :
    ∀ (f : Option MFilter) (ds : List Filter) (r : Option AbsId) (ds2 : List Filter),
      getOpt cbs f ds = some (r, ds2) → ∃ ext, ds2 = ds ++ ext
  | none, ds, r, ds2, h => by
    simp only [getOpt, Option.some_inj, Prod.mk.injEq] at h
    exact ⟨[], by simp [h.2]⟩
  | some f, ds, r, ds2, h => by
    simp only [getOpt, Option.bind_eq_bind, Option.bind_eq_some, id_of_ast] at h
    obtain ⟨⟨gf, ds1⟩, hf, h2⟩ := h
    obtain ⟨e1, he1⟩ := filter_ext cbs f ds gf ds1 hf
    simp only [Option.some_inj, Prod.mk.injEq] at h2
    exact ⟨e1 ++ [gf], by simp [← h2.2, he1]⟩

theorem of_str_ext (cbs : List Callable) :
    ∀ (s : StrS MFilter) (ds : List Filter) (r : Filter) (ds2 : List Filter),
      of_str cbs s ds = some (r, ds2) → ∃ ext, ds2 = ds ++ ext
  | ⟨none, parts⟩, ds, r, ds2, h => by
    simp only [of_str, Option.bind_eq_bind, Option.bind_eq_some] at h
    obtain ⟨⟨fs, ds1⟩, h1, h2⟩ := h
    obtain ⟨e1, he1⟩ := strParts_ext cbs TOSTRING parts ds fs ds1 h1
    obtain ⟨e2, he2⟩ := fold_adds_snd (.str "") fs ds1
    simp only [Option.some_inj] at h2
    have hsnd : ds2 = (fold_adds (.str "") fs ds1).2 := by rw [h2]
    exact ⟨e1 ++ e2, by rw [hsnd, he2, he1]; simp⟩
  | ⟨some fmt, parts⟩, ds, r, ds2, h => by
    simp only [of_str, Option.bind_eq_bind, Option.bind_eq_some, id_of_ast] at h
    obtain ⟨⟨gf, dsf⟩, hf, ⟨⟨fs, ds1⟩, h1, h2⟩⟩ := h
    obtain ⟨e0, he0⟩ := filter_ext cbs fmt ds gf dsf hf
    obtain ⟨e1, he1⟩ := strParts_ext cbs dsf.length parts (dsf ++ [gf]) fs ds1 h1
    obtain ⟨e2, he2⟩ := fold_adds_snd (.str "") fs ds1
    simp only [Option.some_inj] at h2
    have hsnd : ds2 = (fold_adds (.str "") fs ds1).2 := by rw [h2]
    exact ⟨e0 ++ [gf] ++ e1 ++ e2, by rw [hsnd, he2, he1, he0]; simp⟩

theorem strParts_ext (cbs : List Callable) (fmt : AbsId) :
    ∀ (ps : List (StrPart MFilter)) (ds : List Filter) (r : List Filter) (ds2 : List Filter),
      strParts cbs fmt ps ds = some (r, ds2) → ∃ ext, ds2 = ds ++ ext
  | [], ds, r, ds2, h => by
    simp only [strParts, Option.some_inj, Prod.mk.injEq] at h
    exact ⟨[], by simp [h.2]⟩
  | .str s :: rest, ds, r, ds2, h => by
    simp only [strParts, Option.bind_eq_bind, Option.bind_eq_some] at h
    obtain ⟨⟨fs, ds1⟩, h1, h2⟩ := h
    obtain ⟨e1, he1⟩ := strParts_ext cbs fmt rest ds fs ds1 h1
    simp only [Option.some_inj, Prod.mk.injEq] at h2
    exact ⟨e1, by simp [← h2.2, he1]⟩
  | .fn f :: rest, ds, r, ds2, h => by
    simp only [strParts, Option.bind_eq_bind, Option.bind_eq_some, id_of_ast] at h
    obtain ⟨⟨gf, ds1⟩, hf, ⟨⟨fs, dsx⟩, hx, h3⟩⟩ := h
    obtain ⟨e1, he1⟩ := filter_ext cbs f ds gf ds1 hf
    obtain ⟨e2, he2⟩ := strParts_ext cbs fmt rest (ds1 ++ [gf]) fs dsx hx
    simp only [Option.some_inj, Prod.mk.injEq] at h3
    exact ⟨e1 ++ [gf] ++ e2, by simp [← h3.2, he2, he1]⟩

theorem of_key_val_ext (cbs : List Callable) :
    ∀ (kv : KeyVal MFilter) (ds : List Filter) (r : Filter) (ds2 : List Filter),
      of_key_val cbs kv ds = some (r, ds2) → ∃ ext, ds2 = ds ++ ext
  | .filter k v, ds, r, ds2, h => by
    simp only [of_key_val, Option.bind_eq_bind, Option.bind_eq_some, id_of_ast] at h
    obtain ⟨⟨gk, dsk⟩, hk, ⟨⟨gv, dsv⟩, hv, h3⟩⟩ := h
    obtain ⟨e1, he1⟩ := filter_ext cbs k ds gk dsk hk
    obtain ⟨e2, he2⟩ := filter_ext cbs v (dsk ++ [gk]) gv dsv hv
    simp only [Option.some_inj, Prod.mk.injEq] at h3
    exact ⟨e1 ++ [gk] ++ e2 ++ [gv], by simp [← h3.2, he2, he1]⟩
  | .str k none, ds, r, ds2, h => by
    simp only [of_key_val, Option.bind_eq_bind, Option.bind_eq_some, id_of_ast] at h
    obtain ⟨⟨gk, dsk⟩, hk, h2⟩ := h
    obtain ⟨e1, he1⟩ := of_str_ext cbs k ds gk dsk hk
    simp only [Option.some_inj, Prod.mk.injEq] at h2
    exact ⟨e1 ++ [gk, .path IDENTITY (Path.fromPart (.index dsk.length))],
      by simp [← h2.2, he1]⟩
  | .str k (some v), ds, r, ds2, h => by
    simp only [of_key_val, Option.bind_eq_bind, Option.bind_eq_some, id_of_ast] at h
    obtain ⟨⟨gk, dsk⟩, hk, ⟨⟨gv, dsv⟩, hv, h3⟩⟩ := h
    obtain ⟨e1, he1⟩ := of_str_ext cbs k ds gk dsk hk
    obtain ⟨e2, he2⟩ := filter_ext cbs v (dsk ++ [gk]) gv dsv hv
    simp only [Option.some_inj, Prod.mk.injEq] at h3
    exact ⟨e1 ++ [gk] ++ e2 ++ [gv], by simp [← h3.2, he2, he1]⟩

theorem kvList_ext (cbs : List Callable) :
    ∀ (kvs : List (KeyVal MFilter)) (ds : List Filter) (r : List Filter) (ds2 : List Filter),
      kvList cbs kvs ds = some (r, ds2) → ∃ ext, ds2 = ds ++ ext
  | [], ds, r, ds2, h => by
    simp only [kvList, Option.some_inj, Prod.mk.injEq] at h
    exact ⟨[], by simp [h.2]⟩
  | kv :: rest, ds, r, ds2, h => by
    simp only [kvList, Option.bind_eq_bind, Option.bind_eq_some] at h
    obtain ⟨⟨f, ds1⟩, hf, ⟨⟨fs, dsx⟩, hx, h3⟩⟩ := h
    obtain ⟨e1, he1⟩ := of_key_val_ext cbs kv ds f ds1 hf
    obtain ⟨e2, he2⟩ := kvList_ext cbs rest ds1 fs dsx hx
    simp only [Option.some_inj, Prod.mk.injEq] at h3
    exact ⟨e1 ++ e2, by simp [← h3.2, he2, he1]⟩

theorem iteFold_ext (cbs : List Callable) :
    ∀ (brs : List (MFilter × MFilter)) (els : Filter) (ds : List Filter) (r : Filter) (ds2 : List Filter),
      iteFold cbs brs els ds = some (r, ds2) → ∃ ext, ds2 = ds ++ ext
  | [], els, ds, r, ds2, h => by
    simp only [iteFold, Option.some_inj, Prod.mk.injEq] at h
    exact ⟨[], by simp [h.2]⟩
  | (i, t) :: rest, els, ds, r, ds2, h => by
    simp only [iteFold, Option.bind_eq_bind, Option.bind_eq_some, id_of_ast] at h
    obtain ⟨⟨acc, ds1⟩, ha, ⟨⟨gi, dsi⟩, hi, ⟨⟨gt, dst⟩, ht, h4⟩⟩⟩ := h
    obtain ⟨e1, he1⟩ := iteFold_ext cbs rest els ds acc ds1 ha
    obtain ⟨e2, he2⟩ := filter_ext cbs i ds1 gi dsi hi
    obtain ⟨e3, he3⟩ := filter_ext cbs t (dsi ++ [gi]) gt dst ht
    simp only [Option.some_inj, Prod.mk.injEq] at h4
    exact ⟨e1 ++ e2 ++ [gi] ++ e3 ++ [gt, acc], by simp [← h4.2, he3, he2, he1]⟩

theorem pathParts_ext (cbs : List Callable) :
    ∀ (ps : List (SynPart MFilter × Opt)) (ds : List Filter) (r : List (PathPart AbsId × Opt)) (ds2 : List Filter),
      pathParts cbs ps ds = some (r, ds2) → ∃ ext, ds2 = ds ++ ext
  | [], ds, r, ds2, h => by
    simp only [pathParts, Option.some_inj, Prod.mk.injEq] at h
    exact ⟨[], by simp [h.2]⟩
  | (.index i, opt) :: rest, ds, r, ds2, h => by
    simp only [pathParts, Option.bind_eq_bind, Option.bind_eq_some, id_of_ast] at h
    obtain ⟨⟨gi, ds1⟩, hi, ⟨⟨ps2, dsx⟩, hx, h3⟩⟩ := h
    obtain ⟨e1, he1⟩ := filter_ext cbs i ds gi ds1 hi
    obtain ⟨e2, he2⟩ := pathParts_ext cbs rest (ds1 ++ [gi]) ps2 dsx hx
    simp only [Option.some_inj, Prod.mk.injEq] at h3
    exact ⟨e1 ++ [gi] ++ e2, by simp [← h3.2, he2, he1]⟩
  | (.range lo hi, opt) :: rest, ds, r, ds2, h => by
    simp only [pathParts, Option.bind_eq_bind, Option.bind_eq_some] at h
    obtain ⟨⟨lo2, dsl⟩, hl, ⟨⟨hi2, dsh⟩, hh, ⟨⟨ps2, dsx⟩, hx, h4⟩⟩⟩ := h
    obtain ⟨e1, he1⟩ := getOpt_ext cbs lo ds lo2 dsl hl
    obtain ⟨e2, he2⟩ := getOpt_ext cbs hi dsl hi2 dsh hh
    obtain ⟨e3, he3⟩ := pathParts_ext cbs rest dsh ps2 dsx hx
    simp only [Option.some_inj, Prod.mk.injEq] at h4
    exact ⟨e1 ++ e2 ++ e3, by simp [← h4.2, he3, he2, he1]⟩

end

/-- Setting the element just past a left append happens inside the right
part. -/
theorem set_append_len {α : Type} (l1 l2 : List α) (a : α) :
    (l1 ++ l2).set l1.length a = l1 ++ l2.set 0 a := by
  rw [List.set_append]
  simp

mutual

theorem main_inv : ∀ (m : Main) (c : Ctx) (b : Filter) (c2 : Ctx),
    main m c = some (b, c2) →
      c2.callable = c.callable ∧ ∃ ext, c2.defs = c.defs ++ ext
  | .mk defs body, c, b, c2, h => by
    simp only [main, Option.bind_eq_bind, Option.bind_eq_some] at h
    obtain ⟨c1, h1, ⟨⟨bb, ds⟩, hb, h3⟩⟩ := h
    obtain ⟨⟨tl, hcal, hlen⟩, e1, he1⟩ := defList_inv defs c c1 h1
    obtain ⟨e2, he2⟩ := filter_ext c1.callable body c1.defs bb ds hb
    split at h3
    · simp only [Option.some_inj, Prod.mk.injEq] at h3
      obtain ⟨rfl, rfl⟩ := h3
      constructor
      · show List.take _ c1.callable = c.callable
        rw [hcal]
        have hl : (c.callable ++ tl).length - defs.length = c.callable.length := by
          simp [hlen]
        rw [hl, ← List.take_left c.callable tl]
        simp
      · exact ⟨e1 ++ e2, by show ds = _; rw [he2, he1]; simp⟩
    · exact absurd h3 (by simp)

theorem defList_inv : ∀ (L : List Def) (c : Ctx) (c2 : Ctx),
    defListF L c = some c2 →
      (∃ tl, c2.callable = c.callable ++ tl ∧ tl.length = L.length) ∧
      ∃ ext, c2.defs = c.defs ++ ext
  | [], c, c2, h => by
    simp only [defListF, Option.some_inj] at h
    exact ⟨⟨[], by simp [← h], by simp⟩, [], by simp [← h]⟩
  | d :: rest, c, c2, h => by
    simp only [defListF, Option.bind_eq_bind, Option.bind_eq_some] at h
    obtain ⟨⟨id, c1⟩, h1, h2⟩ := h
    obtain ⟨hcal1, hid1, e1, he1⟩ := defF_inv d c id c1 h1
    obtain ⟨⟨tl, hcal2, hlen⟩, e2, he2⟩ := defList_inv rest c1 c2 h2
    refine ⟨⟨⟨d.lhs, id, d.tailrec⟩ :: tl, ?_, by simp [hlen]⟩,
      e1 ++ e2, by rw [he2, he1]; simp⟩
    rw [hcal2, hcal1]
    simp

theorem defF_inv : ∀ (d : Def) (c : Ctx) (id : AbsId) (c2 : Ctx),
    defF d c = some (id, c2) →
      c2.callable = c.callable ++ [⟨d.lhs, id, d.tailrec⟩] ∧
      id = c.defs.length ∧ ∃ ext, c2.defs = c.defs ++ ext
  | .mk lhs rhs tailrec, c, id, c2, h => by
    simp only [defF, Option.bind_eq_bind, Option.bind_eq_some] at h
    obtain ⟨⟨body, cm⟩, hm, h2⟩ := h
    obtain ⟨hcal, e1, he1⟩ := main_inv rhs
      ⟨c.defs ++ [Filter.id], c.callable ++ [⟨lhs, c.defs.length, tailrec⟩]⟩ body cm hm
    simp only at hcal he1
    rw [hcal] at h2
    rw [List.getLast?_concat] at h2
    simp only [Option.some_inj] at h2
    obtain ⟨w, hw, h3⟩ := h2
    obtain rfl := hw
    rw [if_pos rfl] at h3
    simp only [Option.some_inj, Prod.mk.injEq] at h3
    obtain ⟨rfl, rfl⟩ := h3
    refine ⟨by simp [hcal, Def.lhs, Def.tailrec], rfl, body :: e1, ?_⟩
    show List.set cm.defs c.defs.length body = _
    rw [he1, List.append_assoc, set_append_len]
    rfl

end

/-- C2: a freshly created lowering context allocates the four builtins
identity, to-string, empty-generator, deep-recursion in that order at the
reserved ids 0, 1, 3, 7; every bootstrap identifier assertion passes (the
construction returns `some`, with the arena spelled out), and fresh
construction is a fixed value, so a second fresh context yields exactly
the same builtin identifiers. -/
theorem builtin_bootstrap :
    IDENTITY = 0 ∧ TOSTRING = 1 ∧ EMPTY = 3 ∧ RECURSE = 7 ∧
    Ctx.default = some ⟨[.id, .toString, .objEmpty,
      .path 2 [(.range none none, .essential)],
      .path 0 [(.range none none, .optional)],
      .call ⟨7, .throw, 0, []⟩,
      .pipe 4 false 5,
      .comma 0 6], []⟩ ∧
    (∀ c1 c2 : Ctx, Ctx.default = some c1 → Ctx.default = some c2 → c1 = c2) := by
  refine ⟨rfl, rfl, rfl, rfl, rfl, ?_⟩
  intro c1 c2 h1 h2
  rw [h1] at h2
  exact Option.some_inj.mp h2

/-- Witness for C2: the determinism clause applied to two runs of the
bootstrap. -/
theorem builtin_bootstrap_witness :
    (⟨[Filter.id, .toString, .objEmpty,
      .path 2 [(.range none none, .essential)],
      .path 0 [(.range none none, .optional)],
      .call ⟨7, .throw, 0, []⟩,
      .pipe 4 false 5,
      .comma 0 6], []⟩ : Ctx) =
    ⟨[Filter.id, .toString, .objEmpty,
      .path 2 [(.range none none, .essential)],
      .path 0 [(.range none none, .optional)],
      .call ⟨7, .throw, 0, []⟩,
      .pipe 4 false 5,
      .comma 0 6], []⟩ :=
  builtin_bootstrap.2.2.2.2.2 _ _ rfl rfl

/-- C8: an array literal with empty body lowers to an array-construction
node whose inner id is the empty-generator builtin id, and a non-empty
body lowers to an array-construction node wrapping the lowered inner
filter's id. -/
theorem array_lowering (cbs : List Callable) (ds ds2 : List Filter)
    (x : MFilter) (xid : AbsId)
    (hx : get cbs x ds = some (xid, ds2)) :
    filter cbs (.array none) ds = some (.array EMPTY, ds) ∧
    filter cbs (.array (some x)) ds = some (.array xid, ds2) := by
  obtain ⟨g, ds1, hf, rfl, rfl⟩ := (get_some_iff cbs x ds xid ds2).mp hx
  exact ⟨rfl, by simp [filter, hf, id_of_ast]⟩

/-- Witness for C8 at the identity inner filter and an empty context. -/
theorem array_lowering_witness :
    filter [] (.array none) [] = some (.array EMPTY, []) ∧
    filter [] (.array (some .id)) [] = some (.array 0, [.id]) :=
  array_lowering [] [] [.id] .id 0 rfl

/-- C1: at a resolved-definition call site, the calling convention is
exactly the function of (call in tail position, target flagged
tail-recursive) given by: (true, true) throws, (false, true) catches,
(false, false) is normal, and (true, false) aborts lowering with `none`
instead of downgrading to normal. -/
theorem call_convention_table (cbs : List Callable) (ds ds2 : List Filter)
    (args : List MFilter) (ids : List AbsId) (id skip : Nat) (tail : Bool)
    (cb : Callable)
    (hargs : getList cbs args ds = some (ids, ds2))
    (hcb : cbs.get? id = some cb) :
    filter cbs (.call (.defn id skip tail) args) ds =
      match tail, cb.tailrec with
      | true, true => some (.call ⟨cb.id, .throw, skip, zipArgs cb.sig.args ids⟩, ds2)
      | true, false => none
      | false, true => some (.call ⟨cb.id, .catch, skip, zipArgs cb.sig.args ids⟩, ds2)
      | false, false => some (.call ⟨cb.id, .normal, skip, zipArgs cb.sig.args ids⟩, ds2) := by
  simp only [filter, Option.bind_eq_bind, hargs, Option.some_bind, hcb]
  obtain ⟨sig, cid, tr⟩ := cb
  cases tail <;> cases tr <;> rfl

/-- Witness for C1: a non-tail call to a tail-recursive target lowers
with the catch convention. -/
theorem call_convention_table_witness :
    filter [⟨⟨"f", []⟩, 0, true⟩] (.call (.defn 0 0 false) []) [] =
      some (.call ⟨0, .catch, 0, []⟩, []) :=
  call_convention_table [⟨⟨"f", []⟩, 0, true⟩] [] [] [] [] 0 0 false
    ⟨⟨"f", []⟩, 0, true⟩ rfl rfl

/-- C4: a call naming an in-scope parameter with zero arguments lowers to
a plain variable reference; the same reference with one or more arguments
aborts lowering with `none`, as does a tail call to a target that is not
flagged tail-recursive — neither fatal condition is recovered into a
lowered node. -/
theorem arg_call_lowering (cbs : List Callable) (ds : List Filter) (a : Nat) :
    filter cbs (.call (.arg a) []) ds = some (.var a, ds) ∧
    (∀ x rest ids ds2, getList cbs (x :: rest) ds = some (ids, ds2) →
       filter cbs (.call (.arg a) (x :: rest)) ds = none) ∧
    (∀ id skip args ids ds2 cb, getList cbs args ds = some (ids, ds2) →
       cbs.get? id = some cb → cb.tailrec = false →
       filter cbs (.call (.defn id skip true) args) ds = none) := by
  refine ⟨rfl, ?_, ?_⟩
  · intro x rest ids ds2 h
    have h' := h
    simp only [getList, Option.bind_eq_bind, Option.bind_eq_some] at h
    obtain ⟨⟨i0, ds0⟩, h0, ⟨⟨irest, ds1⟩, hrest, h3⟩⟩ := h
    simp only [Option.some_inj, Prod.mk.injEq] at h3
    obtain ⟨rfl, rfl⟩ := h3
    simp [filter, h']
  · intro id skip args ids ds2 cb hargs hcb htr
    simp only [filter, Option.bind_eq_bind, hargs, Option.some_bind, hcb]
    obtain ⟨sig, cid, tr⟩ := cb
    simp only at htr
    subst htr
    rfl

/-- Witness for C4: the parameter reference `a0` applied to one argument
aborts lowering. -/
theorem arg_call_lowering_witness :
    filter [] (.call (.arg 0) [.id]) [] = none :=
  (arg_call_lowering [] [] 0).2.1 .id [] [0] [.id] rfl

/-- C9: a multi-branch conditional right-folds the (if, then) branch list
onto the lowered final else branch, which defaults to identity when
absent, so `if A then B end` lowers exactly like
`if A then B else identity end`; each fold step produces one conditional
node whose else id is the arena slot just written with the previously
folded result. -/
theorem ite_lowering (cbs : List Callable) (ds : List Filter)
    (ifThens : List (MFilter × MFilter)) :
    filter cbs (.ite ifThens none) ds = filter cbs (.ite ifThens (some .id)) ds ∧
    (∀ els, iteFold cbs [] els ds = some (els, ds)) ∧
    (∀ i t rest els acc ds1 iid dsi tid dst,
       iteFold cbs rest els ds = some (acc, ds1) →
       get cbs i ds1 = some (iid, dsi) →
       get cbs t dsi = some (tid, dst) →
       iteFold cbs ((i, t) :: rest) els ds =
         some (.ite iid tid dst.length, dst ++ [acc])) := by
  refine ⟨rfl, fun els => rfl, ?_⟩
  intro i t rest els acc ds1 iid dsi tid dst h1 h2 h3
  obtain ⟨gi, dsi0, hfi, rfl, rfl⟩ := (get_some_iff cbs i ds1 iid dsi).mp h2
  obtain ⟨gt, dst0, hft, rfl, rfl⟩ := (get_some_iff cbs t (dsi0 ++ [gi]) tid dst).mp h3
  simp [iteFold, h1, hfi, hft, id_of_ast]

/-- Witness for C9: one branch folded onto the identity else branch. -/
theorem ite_lowering_witness :
    iteFold [] [((.id : MFilter), (.id : MFilter))] .id [] =
      some (.ite 0 1 2, [.id, .id, .id]) :=
  (ite_lowering [] [] []).2.2 .id .id [] .id .id [] 0 [.id] 1 [.id, .id]
    rfl rfl rfl

/-- C7: an object literal with zero pairs lowers to exactly the
empty-object node with no addition nodes emitted; every key-value pair
lowers to a single-pair object node; and the pairs are combined with the
same right-to-left addition fold as string interpolation. -/
theorem object_lowering (cbs : List Callable) (ds : List Filter) :
    filter cbs (.object []) ds = some (.objEmpty, ds) ∧
    (∀ kv r ds2, of_key_val cbs kv ds = some (r, ds2) →
       ∃ k v, r = .objSingle k v) ∧
    (∀ kv1 kv2 kv3 f1 f2 f3 ds3,
       kvList cbs [kv1, kv2, kv3] ds = some ([f1, f2, f3], ds3) →
       filter cbs (.object [kv1, kv2, kv3]) ds =
         some (.math (ds3.length + 2) .add (ds3.length + 3),
           ds3 ++ [f2, f3, f1, .math ds3.length .add (ds3.length + 1)])) := by
  refine ⟨rfl, ?_, ?_⟩
  · intro kv r ds2 h
    cases kv with
    | filter k v =>
      simp only [of_key_val, Option.bind_eq_bind, Option.bind_eq_some,
        id_of_ast] at h
      obtain ⟨⟨gk, dsk⟩, hk, ⟨⟨gv, dsv⟩, hv, h3⟩⟩ := h
      simp only [Option.some_inj, Prod.mk.injEq] at h3
      exact ⟨_, _, h3.1.symm⟩
    | str k v =>
      cases v with
      | none =>
        simp only [of_key_val, Option.bind_eq_bind, Option.bind_eq_some,
          id_of_ast] at h
        obtain ⟨⟨gk, dsk⟩, hk, h2⟩ := h
        simp only [Option.some_inj, Prod.mk.injEq] at h2
        exact ⟨_, _, h2.1.symm⟩
      | some v =>
        simp only [of_key_val, Option.bind_eq_bind, Option.bind_eq_some,
          id_of_ast] at h
        obtain ⟨⟨gk, dsk⟩, hk, ⟨⟨gv, dsv⟩, hv, h3⟩⟩ := h
        simp only [Option.some_inj, Prod.mk.injEq] at h3
        exact ⟨_, _, h3.1.symm⟩
  · intro kv1 kv2 kv3 f1 f2 f3 ds3 h
    simp [filter, h, fold_adds, add, id_of_ast]

/-- Witness for C7: three identical pairs, each lowered to a single-pair
object node, folded right to left. -/
theorem object_lowering_witness :
    filter [] (.object [.filter .id .id, .filter .id .id, .filter .id .id]) [] =
      some (.math 8 .add 9,
        [.id, .id, .id, .id, .id, .id,
         .objSingle 2 3, .objSingle 4 5, .objSingle 0 1, .math 6 .add 7]) :=
  (object_lowering [] []).2.2 (.filter .id .id) (.filter .id .id)
    (.filter .id .id) (.objSingle 0 1) (.objSingle 2 3) (.objSingle 4 5)
    [.id, .id, .id, .id, .id, .id] rfl

/-- C5: in string interpolation each embedded-filter part lowers to a pipe
of the filter into the format function (the to-string builtin when none is
given), literal parts lower to string literals, and parts are combined by
the addition node folded from the rightmost part leftward (right-to-left
association); an empty part sequence lowers to the empty-string literal. -/
theorem str_interpolation (cbs : List Callable) (ds ds1 : List Filter)
    (a b : String) (x : MFilter) (xid : AbsId)
    (hx : get cbs x ds = some (xid, ds1)) :
    of_str cbs ⟨none, []⟩ ds = some (.str "", ds) ∧
    (∀ fmt f rest fid dsf fs dsp,
       get cbs f ds = some (fid, dsf) →
       strParts cbs fmt rest dsf = some (fs, dsp) →
       strParts cbs fmt (.fn f :: rest) ds = some (.pipe fid false fmt :: fs, dsp)) ∧
    (∀ x0 y rest ds0,
       fold_adds (Filter.str "") (x0 :: y :: rest) ds0 =
         (.math (fold_adds (Filter.str "") (y :: rest) ds0).2.length .add
            ((fold_adds (Filter.str "") (y :: rest) ds0).2.length + 1),
          (fold_adds (Filter.str "") (y :: rest) ds0).2 ++
            [x0, (fold_adds (Filter.str "") (y :: rest) ds0).1])) ∧
    of_str cbs ⟨none, [.str a, .fn x, .str b]⟩ ds =
      some (.math (ds1.length + 2) .add (ds1.length + 3),
        ds1 ++ [.pipe xid false TOSTRING, .str b, .str a,
          .math ds1.length .add (ds1.length + 1)]) := by
  obtain ⟨g, ds0, hf, rfl, rfl⟩ := (get_some_iff cbs x ds xid ds1).mp hx
  refine ⟨rfl, ?_, ?_, ?_⟩
  case refine_2 =>
    intro x0 y rest dsa
    cases hfa : fold_adds (Filter.str "") (y :: rest) dsa with
    | mk acc ds9 => simp [fold_adds, hfa, add_snd]
  · intro fmt f rest fid dsf fs dsp h1 h2
    obtain ⟨gf, dsf0, hff, rfl, rfl⟩ := (get_some_iff cbs f ds fid dsf).mp h1
    simp [strParts, hff, h2, id_of_ast]
  · simp [of_str, strParts, hf, fold_adds, add, id_of_ast]

/-- Witness for C5 with the identity filter embedded between literal
parts "a" and "b". -/
theorem str_interpolation_witness :
    of_str [] ⟨none, [.str "a", .fn .id, .str "b"]⟩ [] =
      some (.math 3 .add 4,
        [.id, .pipe 0 false TOSTRING, .str "b", .str "a", .math 1 .add 2]) :=
  (str_interpolation [] [] [.id] "a" "b" .id 0 rfl).2.2.2

/-- C6: the shorthand object key and the explicit form with value
`.key` lower to the same shape: a single-pair object node whose key slot
holds the string literal and whose value slot holds a path node indexing
the current input (an identity base) by that string key with the
essential policy. -/
theorem shorthand_obj_key (cbs : List Callable) (ds : List Filter) (s : String)
    (h0 : ds[IDENTITY]? = some Filter.id) :
    of_key_val cbs (.str ⟨none, [.str s]⟩ none) ds =
      some (.objSingle ds.length (ds.length + 1),
        ds ++ [.str s, .path IDENTITY [(.index ds.length, .essential)]]) ∧
    of_key_val cbs (.str ⟨none, [.str s]⟩
        (some (.path .id [(.index (.str ⟨none, [.str s]⟩), .essential)]))) ds =
      some (.objSingle ds.length (ds.length + 3),
        ds ++ [.str s, .id, .str s,
          .path (ds.length + 1) [(.index (ds.length + 2), .essential)]]) ∧
    (∀ k v ds2,
       of_key_val cbs (.str ⟨none, [.str s]⟩ none) ds = some (.objSingle k v, ds2) →
       ds2[k]? = some (.str s) ∧
       ∃ bse i, ds2[v]? = some (.path bse [(.index i, .essential)]) ∧
         ds2[bse]? = some Filter.id ∧ ds2[i]? = some (.str s)) ∧
    (∀ k v ds2,
       of_key_val cbs (.str ⟨none, [.str s]⟩
           (some (.path .id [(.index (.str ⟨none, [.str s]⟩), .essential)]))) ds
         = some (.objSingle k v, ds2) →
       ds2[k]? = some (.str s) ∧
       ∃ bse i, ds2[v]? = some (.path bse [(.index i, .essential)]) ∧
         ds2[bse]? = some Filter.id ∧ ds2[i]? = some (.str s)) := by
  have hlen : 0 < ds.length := by
    by_contra hl
    rw [List.getElem?_eq_none (by omega)] at h0
    exact Option.noConfusion h0
  have e1 : of_key_val cbs (.str ⟨none, [.str s]⟩ none) ds =
      some (.objSingle ds.length (ds.length + 1),
        ds ++ [.str s, .path IDENTITY [(.index ds.length, .essential)]]) := by
    simp [of_key_val, of_str, strParts, fold_adds, id_of_ast, Path.fromPart]
  have e2 : of_key_val cbs (.str ⟨none, [.str s]⟩
      (some (.path .id [(.index (.str ⟨none, [.str s]⟩), .essential)]))) ds =
      some (.objSingle ds.length (ds.length + 3),
        ds ++ [.str s, .id, .str s,
          .path (ds.length + 1) [(.index (ds.length + 2), .essential)]]) := by
    simp [of_key_val, of_str, strParts, fold_adds, id_of_ast, filter, pathParts]
  refine ⟨e1, e2, ?_, ?_⟩
  · intro k v ds2 h
    rw [e1] at h
    simp only [Option.some_inj, Prod.mk.injEq, Filter.objSingle.injEq] at h
    obtain ⟨⟨rfl, rfl⟩, rfl⟩ := h
    refine ⟨?_, IDENTITY, ds.length, ?_, ?_, ?_⟩
    · rw [List.getElem?_append_right (Nat.le_refl _)]
      simp
    · rw [List.getElem?_append_right (by omega)]
      simp [Nat.add_sub_cancel_left]
    · rw [List.getElem?_append_left (show IDENTITY < ds.length by
        simpa [IDENTITY] using hlen)]
      exact h0
    · rw [List.getElem?_append_right (Nat.le_refl _)]
      simp
  · intro k v ds2 h
    rw [e2] at h
    simp only [Option.some_inj, Prod.mk.injEq, Filter.objSingle.injEq] at h
    obtain ⟨⟨rfl, rfl⟩, rfl⟩ := h
    refine ⟨?_, ds.length + 1, ds.length + 2, ?_, ?_, ?_⟩
    · rw [List.getElem?_append_right (Nat.le_refl _)]
      simp
    · rw [List.getElem?_append_right (by omega)]
      simp [show ds.length + 3 - ds.length = 3 by omega]
    · rw [List.getElem?_append_right (by omega)]
      simp [show ds.length + 1 - ds.length = 1 by omega]
    · rw [List.getElem?_append_right (by omega)]
      simp [show ds.length + 2 - ds.length = 2 by omega]

/-- Witness for C6 over the bootstrap arena prefix and the key "foo". -/
theorem shorthand_obj_key_witness :
    of_key_val [] (.str ⟨none, [.str "foo"]⟩ none) [.id] =
      some (.objSingle 1 2,
        [.id, .str "foo", .path IDENTITY [(.index 1, .essential)]]) :=
  (shorthand_obj_key [] [.id] "foo" rfl).1

/-- C10: a resolved-definition call emits as its argument list the
positional zip of the target's declared parameter list with the supplied
lowered argument ids — each kept argument retagged (filter-valued or
value-valued) by its matching declared parameter — and when the counts
differ the excess on either side is silently dropped (the call still
lowers to `some`), never reported as an error. -/
theorem def_call_args (cbs : List Callable) (ds ds2 : List Filter)
    (args : List MFilter) (ids : List AbsId) (id skip : Nat) (cb : Callable)
    (hargs : getList cbs args ds = some (ids, ds2))
    (hcb : cbs.get? id = some cb) :
    (∃ typ, filter cbs (.call (.defn id skip false) args) ds =
       some (.call ⟨cb.id, typ, skip, zipArgs cb.sig.args ids⟩, ds2)) ∧
    (zipArgs cb.sig.args ids).length = min cb.sig.args.length ids.length ∧
    (∀ (j : Nat) (ty : Arg String) (a : AbsId),
       cb.sig.args[j]? = some ty → ids[j]? = some a →
       (zipArgs cb.sig.args ids)[j]? = some (Arg.map (fun _ => a) ty)) := by
  refine ⟨?_, by simp [zipArgs], ?_⟩
  · simp only [filter, Option.bind_eq_bind, hargs, Option.some_bind, hcb]
    obtain ⟨sig, cid, tr⟩ := cb
    cases tr
    · exact ⟨.normal, rfl⟩
    · exact ⟨.catch, rfl⟩
  · intro j ty a hty ha
    simp only [zipArgs]
    rw [List.getElem?_zipWith, hty, ha]

/-- Witness for C10: a target declaring two parameters called with one
argument keeps only the zipped argument and still lowers. -/
theorem def_call_args_witness :
    (∃ typ, filter [⟨⟨"f", [.var "a", .fn "g"]⟩, 0, false⟩]
        (.call (.defn 0 3 false) [.id]) [] =
      some (.call ⟨0, typ, 3, zipArgs [.var "a", .fn "g"] [0]⟩, [.id])) ∧
    (zipArgs [.var "a", .fn "g"] [0]).length =
      min ([Arg.var "a", Arg.fn "g"] : List (Arg String)).length
        ([0] : List AbsId).length ∧
    (∀ (j : Nat) (ty : Arg String) (a : AbsId),
       ([Arg.var "a", Arg.fn "g"] : List (Arg String))[j]? = some ty →
       ([0] : List AbsId)[j]? = some a →
       (zipArgs [.var "a", .fn "g"] [0])[j]? = some (Arg.map (fun _ => a) ty)) :=
  def_call_args [⟨⟨"f", [.var "a", .fn "g"]⟩, 0, false⟩] [] [.id] [.id] [0]
    0 3 ⟨⟨"f", [.var "a", .fn "g"]⟩, 0, false⟩ rfl rfl

/-- C3: lowering a definition follows the two-phase protocol.  Whenever
`defF` succeeds, the returned id is the fresh arena slot that held the
placeholder identity node, the net effect on the callable stack is
exactly the pushed callable (everything introduced while lowering the
body has been popped again), every pre-existing arena slot is unchanged,
and the body produced by lowering the right-hand side against the pushed
context has been written over the placeholder slot with the id unchanged
while the arena only ever grew (so popping callables removed no slot);
the top of the callable stack after the body is the pushed callable, so
the final assertion passes: whenever the body lowering succeeds, `defF`
succeeds as well. -/
theorem def_two_phase (d : Def) (c : Ctx) :
    (∀ id c2, defF d c = some (id, c2) →
       id = c.defs.length ∧
       c2.callable = c.callable ++ [⟨d.lhs, id, d.tailrec⟩] ∧
       (∀ j, j < c.defs.length → c2.defs[j]? = c.defs[j]?) ∧
       ∃ body cm,
         main d.rhs ⟨c.defs ++ [Filter.id], c.callable ++ [⟨d.lhs, id, d.tailrec⟩]⟩
           = some (body, cm) ∧
         cm.callable = c.callable ++ [⟨d.lhs, id, d.tailrec⟩] ∧
         cm.callable.getLast? = some ⟨d.lhs, id, d.tailrec⟩ ∧
         (∃ ext, cm.defs = (c.defs ++ [Filter.id]) ++ ext) ∧
         c2 = ⟨cm.defs.set id body, cm.callable⟩ ∧
         c2.defs[id]? = some body) ∧
    (∀ body cm,
       main d.rhs ⟨c.defs ++ [Filter.id],
           c.callable ++ [⟨d.lhs, c.defs.length, d.tailrec⟩]⟩ = some (body, cm) →
       defF d c = some (c.defs.length, ⟨cm.defs.set c.defs.length body, cm.callable⟩)) := by
  obtain ⟨lhs, rhs, tailrec⟩ := d
  constructor
  · intro id c2 h
    have hinv := defF_inv (.mk lhs rhs tailrec) c id c2 h
    obtain ⟨hcal2, hid, ext2, hext2⟩ := hinv
    subst hid
    simp only [defF, Option.bind_eq_bind, Option.bind_eq_some] at h
    obtain ⟨⟨body, cm⟩, hm, h2⟩ := h
    obtain ⟨hcal, e1, he1⟩ := main_inv rhs
      ⟨c.defs ++ [Filter.id], c.callable ++ [⟨lhs, c.defs.length, tailrec⟩]⟩ body cm hm
    simp only at hcal he1
    rw [hcal] at h2
    rw [List.getLast?_concat] at h2
    simp only [Option.some_inj] at h2
    obtain ⟨w, hw, h3⟩ := h2
    obtain rfl := hw
    rw [if_pos rfl] at h3
    simp only [Option.some_inj, Prod.mk.injEq] at h3
    obtain ⟨-, rfl⟩ := h3
    refine ⟨rfl, hcal2, ?_, body, cm, hm, by simpa [Def.lhs, Def.tailrec] using hcal,
      by rw [hcal, List.getLast?_concat]; simp [Def.lhs, Def.tailrec],
      ⟨e1, he1⟩, by rw [hcal], ?_⟩
    · intro j hj
      rw [hext2]
      exact List.getElem?_append_left hj
    · show (cm.defs.set c.defs.length body)[c.defs.length]? = some body
      rw [he1, List.append_assoc, set_append_len]
      rw [List.getElem?_append_right (Nat.le_refl _)]
      simp
  · intro body cm hm
    simp only [Def.lhs, Def.rhs, Def.tailrec] at hm ⊢
    obtain ⟨hcal, e1, he1⟩ := main_inv rhs
      ⟨c.defs ++ [Filter.id], c.callable ++ [⟨lhs, c.defs.length, tailrec⟩]⟩ body cm hm
    simp only at hcal he1
    simp only [defF, Option.bind_eq_bind]
    rw [hm]
    simp only [Option.some_bind]
    rw [hcal, List.getLast?_concat]
    simp

/-- Witness for C3: the second clause applied to a definition whose body
is the identity filter, starting from the empty context. -/
theorem def_two_phase_witness :
    defF (.mk ⟨"f", []⟩ (.mk [] .id) false) ⟨[], []⟩ =
      some (0, ⟨[Filter.id].set 0 Filter.id, [⟨⟨"f", []⟩, 0, false⟩]⟩) :=
  (def_two_phase (.mk ⟨"f", []⟩ (.mk [] .id) false) ⟨[], []⟩).2 Filter.id
    ⟨[Filter.id], [⟨⟨"f", []⟩, 0, false⟩]⟩ rfl

end Lir
